import Mathlib

/-!
Verification of the znc_searcher ingestion-and-search pipeline.

This file is a shallow embedding of the Python sources under `znc_search/`:
`import_logs.py` (filename date parsing, IRC-formatting stripping, and the
network import loop) and `znc_search.py` (the `/api/search` and `/api/context`
query handlers).  Strings are modelled as Lean `String`/`List Char`; the
relational store is modelled as in-memory lists; the behaviour of the external
libraries the code calls (CPython `datetime.strptime` with the `%Y-%m-%d` and
`%Y%m%d` formats, CPython `str.replace`/`str.rstrip`/`str.split`, and the
MySQL `LIKE` / `MATCH ... AGAINST` operators under a case-insensitive
collation) is embedded faithfully where the claims depend on it, restricted
to ASCII where the originals are Unicode-aware.
-/

namespace ZncSearch

/-- Character class: ASCII decimal digit, the model of the `\d` class that
CPython `_strptime` compiles `%Y`/`%m`/`%d` into (ASCII restriction). -/
def isDig (c : Char) : Bool := decide (48 ≤ c.toNat ∧ c.toNat ≤ 57)

/-- Character class `[1-9]`, used by the `%m`/`%d` regexes for the one-digit
month and day alternatives. -/
def digit19 (c : Char) : Bool := decide (49 ≤ c.toNat ∧ c.toNat ≤ 57)

/-- Numeric value of a digit character. -/
def dval (c : Char) : Nat := c.toNat - 48

/-- Calendar date as stored in `log_entries.log_date`. -/
structure Date where
  year : Nat
  month : Nat
  day : Nat
deriving DecidableEq, Repr

/-- Gregorian leap-year test, as in CPython `datetime`. -/
def isLeap (y : Nat) : Bool := y % 4 == 0 && (y % 100 != 0 || y % 400 == 0)

/-- Days in a month, as validated by the CPython `datetime` constructor. -/
def daysInMonth (y m : Nat) : Nat :=
  if m = 2 then (if isLeap y then 29 else 28)
  else if m = 4 ∨ m = 6 ∨ m = 9 ∨ m = 11 then 30
  else 31

/-- Validation performed by the CPython `datetime(year, month, day)`
constructor after the `_strptime` regex has matched: `MINYEAR = 1`,
`MAXYEAR = 9999`, month and day in range.  A failure raises `ValueError`,
which `parse_log_date` swallows, hence `Option`. -/
def mkDate (y m d : Nat) : Option Date :=
  if 1 ≤ y ∧ y ≤ 9999 ∧ 1 ≤ m ∧ m ≤ 12 ∧ 1 ≤ d ∧ d ≤ daysInMonth y m then
    some ⟨y, m, d⟩
  else none

/-- Two-digit month alternative of the CPython `_strptime` regex for `%m`,
namely `1[0-2]|0[1-9]` (the two-character alternatives, tried before the
one-character `[1-9]`). -/
def month2ok (c1 c2 : Char) : Bool :=
  (decide (c1.toNat = 49) && decide (48 ≤ c2.toNat ∧ c2.toNat ≤ 50)) ||
  (decide (c1.toNat = 48) && digit19 c2)

/-- Two-digit day alternatives of the CPython `_strptime` regex for `%d`,
namely `3[01]|[12]\d|0[1-9]`. -/
def day2ok (c1 c2 : Char) : Bool :=
  (decide (c1.toNat = 51) && (decide (c2.toNat = 48) || decide (c2.toNat = 49))) ||
  ((decide (c1.toNat = 49) || decide (c1.toNat = 50)) && isDig c2) ||
  (decide (c1.toNat = 48) && digit19 c2)

/-- Matching of the `%d` group `(3[01]|[12]\d|0[1-9]|[1-9])` at the head of
the input: the regex engine prefers the two-character alternatives and falls
back to `[1-9]`; it returns the matched day value and the unconsumed
remainder, or `none` when no alternative matches at this position. -/
def dayScan : List Char → Option (Nat × List Char)
  | d1 :: d2 :: rest =>
      if day2ok d1 d2 then some (10 * dval d1 + dval d2, rest)
      else if digit19 d1 then some (dval d1, d2 :: rest)
      else none
  | [d1] => if digit19 d1 then some (dval d1, []) else none
  | [] => none

/-- Month-then-day tail of `strptime(s, "%Y-%m-%d")` after the year and the
first dash have been consumed.  The regex engine commits to the two-digit
month alternative when it matches and is followed by the literal dash
(backtracking to the one-digit month would place the literal dash on a digit
and fail); the trailing-garbage check (`found.end() != len`) raises
`ValueError` without further backtracking, and calendar validation happens
afterwards in the `datetime` constructor. -/
def dashedMD (y : Nat) (rest : List Char) : Option Date :=
  match rest with
  | m1 :: m2 :: rest2 =>
      if month2ok m1 m2 then
        match rest2 with
        | '-' :: rest3 =>
            match dayScan rest3 with
            | some (d, leftover) =>
                if leftover = [] then mkDate y (10 * dval m1 + dval m2) d else none
            | none => none
        | _ => none
      else if digit19 m1 ∧ m2 = '-' then
        match dayScan rest2 with
        | some (d, leftover) => if leftover = [] then mkDate y (dval m1) d else none
        | none => none
      else none
  | _ => none

/-- Month-then-day tail of `strptime(s, "%Y%m%d")` after the four year digits.
The engine prefers the two-digit month; if the day group then fails to match
at all, it backtracks to the one-digit month.  A day match that leaves
trailing input is a completed regex match, so the length check raises
`ValueError` with no further backtracking. -/
def compactMD (y : Nat) (rest : List Char) : Option Date :=
  match rest with
  | m1 :: m2 :: rest2 =>
      if month2ok m1 m2 then
        match dayScan rest2 with
        | some (d, leftover) =>
            if leftover = [] then mkDate y (10 * dval m1 + dval m2) d else none
        | none =>
            if digit19 m1 then
              match dayScan (m2 :: rest2) with
              | some (d, leftover) => if leftover = [] then mkDate y (dval m1) d else none
              | none => none
            else none
      else if digit19 m1 then
        match dayScan (m2 :: rest2) with
        | some (d, leftover) => if leftover = [] then mkDate y (dval m1) d else none
        | none => none
      else none
  | _ => none

/-- Model of `datetime.strptime(s, "%Y-%m-%d")` (import_logs.py line 125):
exactly four digits, a literal dash, then month/day as in `dashedMD`. -/
def strptimeDashed (cs : List Char) : Option Date :=
  match cs with
  | y1 :: y2 :: y3 :: y4 :: '-' :: rest =>
      if isDig y1 && isDig y2 && isDig y3 && isDig y4 then
        dashedMD (1000 * dval y1 + 100 * dval y2 + 10 * dval y3 + dval y4) rest
      else none
  | _ => none

/-- Model of `datetime.strptime(s, "%Y%m%d")` (import_logs.py line 131). -/
def strptimeCompact (cs : List Char) : Option Date :=
  match cs with
  | y1 :: y2 :: y3 :: y4 :: rest =>
      if isDig y1 && isDig y2 && isDig y3 && isDig y4 then
        compactMD (1000 * dval y1 + 100 * dval y2 + 10 * dval y3 + dval y4) rest
      else none
  | _ => none

/-- Fuelled worker for `stripLog`; the fuel only serves to make the
recursion structural (the wrapper always supplies enough). -/
def stripLogF : Nat → List Char → List Char
  | 0, cs => cs
  | _ + 1, [] => []
  | fuel + 1, c :: rest =>
      if c = '.' ∧ rest.take 3 = ['l', 'o', 'g'] then stripLogF fuel (rest.drop 3)
      else c :: stripLogF fuel rest

/-- Model of CPython `filename.replace(".log", "")` (import_logs.py line 122):
left-to-right, non-overlapping removal of every occurrence of `.log`, with no
rescanning of the replacement. -/
def stripLog (cs : List Char) : List Char := stripLogF cs.length cs

/-- Model of CPython `date_str.split('_')[-1]` (import_logs.py line 130): the
segment after the last underscore, or the whole string when there is none. -/
def lastSeg (cs : List Char) : List Char :=
  match cs with
  | [] => []
  | c :: rest => if '_' ∈ c :: rest then lastSeg rest else c :: rest

/-- Embedding of `parse_log_date` (import_logs.py lines 120-135): strip every
`.log`, try the dashed format on the whole string, then the compact format on
the last underscore-separated segment; `None` when both fail.  The same
function appears verbatim in `import_logs_debug.py` and `diagnostic.py`. -/
def parse_log_date (filename : String) : Option Date :=
  let ds := stripLog filename.data
  match strptimeDashed ds with
  | some d => some d
  | none => strptimeCompact (lastSeg ds)

/-- Tail of a color-code match after `\x03` and one or two digits: the
optional `(?:,\d{1,2})?` group, matched greedily.  Returns the input with the
matched characters removed. -/
def dropComma (cs : List Char) : List Char :=
  match cs with
  | c0 :: c1 :: rest1 =>
      if c0 = ',' ∧ isDig c1 then
        match rest1 with
        | c2 :: rest2 => if isDig c2 then rest2 else rest1
        | [] => []
      else cs
  | _ => cs

/-- Tail of a color-code match after the `\x03` byte: the optional
`(?:\d{1,2}(?:,\d{1,2})?)?` group, matched greedily. -/
def dropColorDigits (cs : List Char) : List Char :=
  match cs with
  | c1 :: rest1 =>
      if isDig c1 then
        match rest1 with
        | c2 :: rest2 => if isDig c2 then dropComma rest2 else dropComma rest1
        | [] => []
      else cs
  | [] => []

/-- Fuelled worker for `stripColors`; the fuel only serves to make the
recursion structural (the wrapper always supplies enough). -/
def stripColorsF : Nat → List Char → List Char
  | 0, cs => cs
  | _ + 1, [] => []
  | fuel + 1, c :: rest =>
      if c = '\x03' then stripColorsF fuel (dropColorDigits rest)
      else c :: stripColorsF fuel rest

/-- Model of `re.sub(r'\x03(?:\d{1,2}(?:,\d{1,2})?)?', '', text)`
(import_logs.py line 33): every `\x03` byte starts a match (the digit part is
optional), matches are found left to right and are non-overlapping. -/
def stripColors (cs : List Char) : List Char := stripColorsF cs.length cs

/-- Formatting-toggle bytes removed by `re.sub(r'[\x02\x1D\x1F\x16\x0F]', '',
text)` (import_logs.py line 41): bold, italic, underline, reverse, reset. -/
def isToggle (c : Char) : Bool :=
  c == '\x02' || c == '\x1D' || c == '\x1F' || c == '\x16' || c == '\x0F'

/-- Embedding of `strip_irc_formatting` (import_logs.py lines 30-43): remove
color-code sequences, then remove the single-byte formatting toggles. -/
def strip_irc_formatting (s : String) : String :=
  String.mk ((stripColors s.data).filter (fun c => !isToggle c))

/-- ASCII whitespace removed by CPython `str.rstrip()` (the Unicode classes
are irrelevant to the transcripts modelled here). -/
def pyIsSpace (c : Char) : Bool :=
  c == ' ' || c == '\t' || c == '\n' || c == '\r' || c == '\x0b' || c == '\x0c'

/-- Model of CPython `line.rstrip()` (import_logs.py line 197): remove
trailing whitespace. -/
def pyRstrip (s : String) : String :=
  String.mk ((s.data.reverse.dropWhile pyIsSpace).reverse)

/-- One row of the `log_entries` table (schema in import_logs.py lines
74-84); the surrogate `id` column is omitted, row identity is positional. -/
structure LogEntry where
  network : String
  channel : String
  date : Date
  line : Nat
  content : String
deriving DecidableEq, Repr

/-- The relational store: the `networks`, `channels` and `log_entries` tables
(the externally-owned `users` table plays no part in the claims). -/
structure DB where
  networks : List (String × String)
  channels : List (String × String)
  entries : List LogEntry
deriving DecidableEq, Repr

def emptyDB : DB := ⟨[], [], []⟩

/-- Static display-name table `NETWORK_NAMES` (import_logs.py lines 25-28). -/
def NETWORK_NAMES : List (String × String) :=
  [("torrentleech", "Torrentleech"), ("mam", "MAM")]

/-- Model of CPython `str.capitalize()` (ASCII): first character upper-cased,
the rest lower-cased. -/
def pyCapitalize (s : String) : String :=
  match s.data with
  | [] => ""
  | c :: rest => String.mk (c.toUpper :: rest.map Char.toLower)

/-- Display name used by `import_network` (import_logs.py line 141). -/
def displayNameFor (networkId : String) : String :=
  match NETWORK_NAMES.lookup networkId with
  | some n => n
  | none => pyCapitalize networkId

/-- Model of `INSERT OR REPLACE INTO networks` (import_logs.py line 142). -/
def upsertNetwork (nets : List (String × String)) (id dn : String) :
    List (String × String) :=
  if nets.any (fun p => p.1 == id) then
    nets.map (fun p => if p.1 == id then (id, dn) else p)
  else nets ++ [(id, dn)]

/-- Model of `INSERT OR IGNORE INTO channels` (import_logs.py line 162). -/
def insertIgnoreChannel (chs : List (String × String)) (net name : String) :
    List (String × String) :=
  if (net, name) ∈ chs then chs else chs ++ [(net, name)]

/-- The `SELECT COUNT(*) FROM log_entries WHERE network_id = ? AND
channel_name = ? AND log_date = ?` check (import_logs.py lines 178-181). -/
def countTriple (es : List LogEntry) (n ch : String) (d : Date) : Nat :=
  (es.filter (fun e => e.network == n && e.channel == ch && e.date == d)).length

/-- Rows built for one file (import_logs.py lines 196-199): every raw line
yields a row, numbered `i+1` over all lines, with the line right-stripped and
IRC formatting removed. -/
def fileEntries (n ch : String) (d : Date) (lines : List String) :
    List LogEntry :=
  lines.enum.map (fun p =>
    ⟨n, ch, d, p.1 + 1, strip_irc_formatting (pyRstrip p.2)⟩)

/-- A directory entry for one log file: its name, and either its lines or
`none` when reading it raises (the `except` branch of import_logs.py lines
211-213). -/
abbrev LogFile := String × Option (List String)

/-- A channel directory: its name and its files. -/
abbrev ChannelDir := String × List LogFile

/-- Processing of a single log file inside `import_network` (import_logs.py
lines 167-213): parse the date from the name (skip silently on failure); when
not forcing, skip if the triple already has rows; read the file (skip on
error); skip empty files; otherwise insert one row per raw line.  Returns the
new store and the number of rows inserted. -/
def importFile (st : DB) (networkId channelName : String) (force : Bool)
    (f : LogFile) : DB × Nat :=
  match parse_log_date f.1 with
  | none => (st, 0)
  | some d =>
      if force = false ∧ 0 < countTriple st.entries networkId channelName d then
        (st, 0)
      else
        match f.2 with
        | none => (st, 0)
        | some lines =>
            if lines = [] then (st, 0)
            else
              let es := fileEntries networkId channelName d lines
              ({ st with entries := st.entries ++ es }, es.length)

/-- The inner file loop of `import_network`, accumulating the insert count. -/
def processFiles (st : DB) (n ch : String) (force : Bool) :
    List LogFile → DB × Nat
  | [] => (st, 0)
  | f :: fs =>
      let r := importFile st n ch force f
      let r2 := processFiles r.1 n ch force fs
      (r2.1, r.2 + r2.2)

/-- Lexicographic comparison of code-point sequences, the order CPython's
`sorted` uses on strings. -/
def lexLE : List Nat → List Nat → Bool
  | [], _ => true
  | _ :: _, [] => false
  | a :: as, b :: bs => if a < b then true else if b < a then false else lexLE as bs

/-- Model of CPython `str` ordering by code points. -/
def nameLE (a b : String) : Prop :=
  lexLE (a.data.map Char.toNat) (b.data.map Char.toNat) = true

instance : DecidableRel nameLE := fun a b => by
  unfold nameLE
  infer_instance

/-- Model of CPython `str.endswith` on the suffix `.log`. -/
def strEndsWith (s suffix : String) : Bool := suffix.data.isSuffixOf s.data

/-- Sorting of directory listings by name, as `sorted(os.listdir(...))`. -/
def sortByName {α : Type} (l : List (String × α)) : List (String × α) :=
  l.insertionSort (fun a b => nameLE a.1 b.1)

/-- Processing of one channel directory (import_logs.py lines 154-165):
register the channel, keep only names ending in `.log`, sort them, and run
the file loop. -/
def processChannel (st : DB) (n : String) (force : Bool) (ch : ChannelDir) :
    DB × Nat :=
  let st1 : DB := { st with channels := insertIgnoreChannel st.channels n ch.1 }
  processFiles st1 n ch.1 force
    (sortByName (ch.2.filter (fun f => strEndsWith f.1 ".log")))

/-- The channel loop of `import_network`. -/
def processChannels (st : DB) (n : String) (force : Bool) :
    List ChannelDir → DB × Nat
  | [] => (st, 0)
  | ch :: rest =>
      let r := processChannel st n force ch
      let r2 := processChannels r.1 n force rest
      (r2.1, r.2 + r2.2)

/-- Embedding of `import_network` (import_logs.py lines 137-218): upsert the
network row, then walk the channel directories in sorted order.  The
filesystem is passed as the list of channel directories found under the
network's log root; returns the updated store and the total insert count (the
function's return value). -/
def import_network (st : DB) (channels : List ChannelDir)
    (networkId : String) (force : Bool) : DB × Nat :=
  let st1 : DB :=
    { st with networks := upsertNetwork st.networks networkId (displayNameFor networkId) }
  processChannels st1 networkId force (sortByName channels)

/-- Case-folding key of a character under the connection's case-insensitive
collation (`utf8mb4_unicode_ci`, znc_search.py line 49), ASCII fragment:
upper-case letters collate with their lower-case forms. -/
def ciKey (c : Char) : Nat :=
  if 65 ≤ c.toNat ∧ c.toNat ≤ 90 then c.toNat + 32 else c.toNat

/-- Collation key of a string. -/
def ciKeys (s : String) : List Nat := s.data.map ciKey

/-- Case-insensitive string equality, the semantics of `=` between text
values under the `_ci` collation (used for `network_id`, `channel_name`). -/
def strEqCI (a b : String) : Bool := ciKeys a == ciKeys b

/-- Word character of the Python regex `\w` (znc_search.py line 368), ASCII
fragment: letters, digits, underscore. -/
def isWordChar (c : Char) : Bool :=
  isDig c || decide (65 ≤ c.toNat ∧ c.toNat ≤ 90) ||
  decide (97 ≤ c.toNat ∧ c.toNat ≤ 122) || c == '_'

/-- Model of `bool(re.match(r'^\w+$', query))` (znc_search.py line 368) on
the already-stripped query: nonempty and made of word characters only. -/
def useFulltext (q : String) : Bool := !q.data.isEmpty && q.data.all isWordChar

/-- Word character at the collation-key level (lower-case letters, digits,
underscore), used to tokenize content for the full-text model. -/
def isWordKey (k : Nat) : Bool :=
  decide ((48 ≤ k ∧ k ≤ 57) ∨ (97 ≤ k ∧ k ≤ 122) ∨ k = 95)

/-- Tokenizer for the full-text index model: maximal runs of word keys. -/
def tokenizeKeys (cs : List Nat) (acc : List Nat) : List (List Nat) :=
  match cs with
  | [] => if acc = [] then [] else [acc.reverse]
  | c :: rest =>
      if isWordKey c then tokenizeKeys rest (c :: acc)
      else if acc = [] then tokenizeKeys rest []
      else acc.reverse :: tokenizeKeys rest []

/-- Model of `MATCH(le.content) AGAINST (%s IN BOOLEAN MODE)` (znc_search.py
line 382) for the single-word queries that reach it: the content, tokenized
on non-word characters under the case-insensitive collation, contains the
query word.  (Stopword and minimum-word-length pruning of the real InnoDB
full-text index are not modelled.) -/
def ftMatch (q content : String) : Bool :=
  (tokenizeKeys (ciKeys content) []).contains (ciKeys q)

/-- Helper for the `%` wildcard: does `f` accept some suffix of the text? -/
def anySuffix (f : List Nat → Bool) : List Nat → Bool
  | [] => f []
  | x :: t2 => f (x :: t2) || anySuffix f t2

/-- Model of the MySQL `LIKE` operator on collation keys (znc_search.py line
397): `%` (key 37) matches any sequence, `_` (key 95) any one character,
backslash (key 92) escapes the next pattern character; other characters
match themselves. -/
def likeMatchN : List Nat → List Nat → Bool
  | [], t => t.isEmpty
  | c :: p, t =>
      if c = 37 then anySuffix (likeMatchN p) t
      else if c = 95 then
        match t with
        | [] => false
        | _ :: t2 => likeMatchN p t2
      else if c = 92 then
        match p with
        | [] => t == [92]
        | c2 :: p2 =>
            match t with
            | [] => false
            | d :: t2 => d == c2 && likeMatchN p2 t2
      else
        match t with
        | [] => false
        | d :: t2 => d == c && likeMatchN p t2

/-- Content match of one `log_entries` row against the query: the fulltext
branch or the `LIKE %query%` branch, selected by `useFulltext`
(znc_search.py lines 368-399). -/
def searchMatch (q : String) (content : String) : Bool :=
  if useFulltext q then ftMatch q content
  else likeMatchN (37 :: ciKeys q ++ [37]) (ciKeys content)

/-- Numeric key of a date, ordered like the SQL `DATE` column. -/
def dateKey (d : Date) : Nat := (d.year * 100 + d.month) * 100 + d.day

/-- The WHERE clause built by `search_logs` (znc_search.py lines 371-411):
network equality, content match, then the optional channel and date filters,
each appended with `AND`. -/
def searchPred (network q channel : String) (sd ed : Option Date)
    (e : LogEntry) : Bool :=
  strEqCI e.network network && searchMatch q e.content &&
  (channel.data.isEmpty || strEqCI e.channel channel) &&
  (match sd with
   | none => true
   | some d => decide (dateKey d ≤ dateKey e.date)) &&
  (match ed with
   | none => true
   | some d => decide (dateKey e.date ≤ dateKey d))

/-- One row of the search response (znc_search.py lines 419-426). -/
structure SearchRow where
  networkId : String
  networkName : String
  channel : String
  date : Date
  line : Nat
  content : String
deriving DecidableEq, Repr

/-- The `ORDER BY le.log_date DESC, le.line_number ASC` order (znc_search.py
line 413), on an entry joined with its network display name. -/
def rowLE (a b : LogEntry × String) : Prop :=
  dateKey b.1.date < dateKey a.1.date ∨
    (dateKey a.1.date = dateKey b.1.date ∧ a.1.line ≤ b.1.line)

instance : DecidableRel rowLE := fun a b => by
  unfold rowLE
  infer_instance

instance : IsTotal (LogEntry × String) rowLE :=
  ⟨fun a b => by unfold rowLE; omega⟩

instance : IsTrans (LogEntry × String) rowLE :=
  ⟨fun a b c h1 h2 => by unfold rowLE at h1 h2 ⊢; omega⟩

/-- The rows matched by a search before the `LIMIT`: the entries passing the
WHERE clause, inner-joined with `networks` for the display name
(znc_search.py lines 379-399). -/
def searchMatches (db : DB) (network q channel : String) (sd ed : Option Date) :
    List (LogEntry × String) :=
  (db.entries.filter (searchPred network q channel sd ed)).filterMap
    (fun e =>
      (db.networks.find? (fun p => strEqCI p.1 e.network)).map
        (fun p => (e, p.2)))

/-- Response of `search_logs` (znc_search.py lines 431-435). -/
structure SearchResult where
  results : List SearchRow
  total : Nat
  truncated : Bool
deriving DecidableEq, Repr

/-- Embedding of the `/api/search` handler `search_logs` (znc_search.py
lines 348-435) after its request-validation guards: execute the filtered,
joined query ordered by date descending then line ascending with `LIMIT
1000`, and report `total = len(results)` and `truncated = len(results) >=
1000`. -/
def search_logs (db : DB) (network q channel : String) (sd ed : Option Date) :
    SearchResult :=
  let sorted := (searchMatches db network q channel sd ed).insertionSort rowLE
  let rows := (sorted.take 1000).map
    (fun p => SearchRow.mk p.1.network p.2 p.1.channel p.1.date p.1.line p.1.content)
  ⟨rows, rows.length, decide (1000 ≤ rows.length)⟩

/-- Response of `get_context` (znc_search.py lines 480-487). -/
structure ContextResult where
  context : List (Nat × String × Bool)
  startLine : Nat
  endLine : Nat
  totalLines : Nat
  canExpandUp : Bool
  canExpandDown : Bool
deriving DecidableEq, Repr

/-- Embedding of the `/api/context` handler `get_context` (znc_search.py
lines 438-487): rows of the (network, channel, date) file with line number
in `[max(1, center - before), center + after]`, ordered by line number, each
flagged `is_match` iff its line equals the center; plus the file's total row
count and the two expansion booleans. -/
def get_context (db : DB) (network channel : String) (d : Date)
    (center linesBefore linesAfter : Nat) : ContextResult :=
  let startLine := max 1 (center - linesBefore)
  let endLine := center + linesAfter
  let tripleRows := db.entries.filter
    (fun e => strEqCI e.network network && strEqCI e.channel channel && e.date == d)
  let inRange := (tripleRows.filter
    (fun e => decide (startLine ≤ e.line ∧ e.line ≤ endLine))).insertionSort
      (fun a b => a.line ≤ b.line)
  let context := inRange.map (fun e => (e.line, e.content, e.line == center))
  ⟨context, startLine, endLine, tripleRows.length,
    decide (1 < startLine), decide (endLine < tripleRows.length)⟩

/-- Zero-padded `k`-digit decimal rendering of `n` (for `n < 10^k`), used to
build filenames of the claimed shapes. -/
def pad : Nat → Nat → List Char
  | 0, _ => []
  | k + 1, n => pad k (n / 10) ++ [Nat.digitChar (n % 10)]

/-- Modelled from the spec: the filename shape `YYYY-MM-DD.log` of claim C3
(four digits, dash, two digits, dash, two digits, then `.log`). -/
def isDashedForm (s : String) : Bool :=
  match s.data with
  | [a, b, c, d, '-', e, f, '-', g, h, '.', 'l', 'o', 'g'] =>
      isDig a && isDig b && isDig c && isDig d && isDig e && isDig f &&
      isDig g && isDig h
  | _ => false

/-- Modelled from the spec: the filename shape `<prefix>_YYYYMMDD.log` of
claim C3 (anything, an underscore, eight digits, then `.log`). -/
def isUnderscoreForm (s : String) : Bool :=
  let cs := s.data
  let n := cs.length
  decide (13 ≤ n) &&
    (match cs.drop (n - 13) with
     | '_' :: rest =>
         (rest.take 8).all isDig && rest.drop 8 == ['.', 'l', 'o', 'g']
     | _ => false)

/-- Modelled from the spec: exact case-insensitive substring containment,
the matching the spec prescribes for the non-fulltext search mode. -/
def substrCI (q content : String) : Bool :=
  decide (ciKeys q <:+: ciKeys content)

/-- Modelled from the spec: stripping of a leading `[HH:MM:SS] ` timestamp
(rule 1 of the spec's Line Filter). -/
def stripTimestamp (cs : List Char) : List Char :=
  match cs with
  | '[' :: h1 :: h2 :: ':' :: m1 :: m2 :: ':' :: s1 :: s2 :: ']' :: ' ' :: rest =>
      if isDig h1 && isDig h2 && isDig m1 && isDig m2 && isDig s1 && isDig s2 then
        rest
      else cs
  | _ => cs

/-- Modelled from the spec: the fixed deny-set of automated service accounts
(the spec leaves the set unenumerated; `NickServ` is in it by the spec's
end-to-end scenario, `ChanServ` is the other canonical services account). -/
def denySet : List (List Nat) := [ciKeys "nickserv", ciKeys "chanserv"]

/-- Modelled from the spec: the speaker nickname of a `<nick> ...` line. -/
def speakerNick (cs : List Char) : Option (List Char) :=
  match cs with
  | '<' :: rest =>
      if '>' ∈ rest then some (rest.takeWhile (fun c => c ≠ '>')) else none
  | _ => none

/-- Modelled from the spec: the Line Filter's discard decision of claim C1 —
after looking past a leading timestamp, discard lines starting with the
system sentinel `*** ` (which subsumes the join/part/quit/topic
announcements) and lines whose speaker nickname is, case-insensitively, in
the deny-set.  No such filter exists in the source; this definition only
serves to state what the claim predicts. -/
def specLineDiscards (line : String) : Bool :=
  let cs := stripTimestamp line.data
  cs.take 4 == ['*', '*', '*', ' '] ||
    (match speakerNick cs with
     | some nick => (nick.map ciKey) ∈ denySet
     | none => false)

/-- Channel directory of the spec's end-to-end import scenario (claim C2). -/
def scenarioC2 : List ChannelDir :=
  [("#chan",
    [("2025-01-01.log",
      some ["[08:00:00] *** Joins: bob",
            "[08:00:05] <bob> hello",
            "[08:00:10] <NickServ> notice"])])]

/-- A store with exactly 1000 entries matching the query `hello` on network
`n`, used to exercise the `truncated` boundary of claim C4. -/
def db1000 : DB :=
  ⟨[("n", "N")], [("n", "#c")],
    (List.range 1000).map (fun i => ⟨"n", "#c", ⟨2025, 1, 1⟩, i + 1, "hello"⟩)⟩

/-- The response ordering of claim C4 on result rows: log date descending,
then line number ascending. -/
def searchRowLE (a b : SearchRow) : Prop :=
  dateKey b.date < dateKey a.date ∨
    (dateKey a.date = dateKey b.date ∧ a.line ≤ b.line)

/-! Helper lemmas. -/

theorem dropComma_length_le : ∀ cs : List Char, (dropComma cs).length ≤ cs.length
  | [] => by simp [dropComma]
  | [c0] => by simp [dropComma]
  | c0 :: c1 :: [] => by
      simp only [dropComma]
      split
      · simp
      · simp
  | c0 :: c1 :: c2 :: rest2 => by
      simp only [dropComma]
      split
      · split
        · simp only [List.length_cons]; omega
        · simp only [List.length_cons]; omega
      · simp

theorem dropColorDigits_length_le :
    ∀ cs : List Char, (dropColorDigits cs).length ≤ cs.length
  | [] => by simp [dropColorDigits]
  | [c1] => by
      simp only [dropColorDigits]
      split
      · simp
      · simp
  | c1 :: c2 :: rest2 => by
      simp only [dropColorDigits]
      split
      · split
        · have := dropComma_length_le rest2
          simp only [List.length_cons]
          omega
        · have := dropComma_length_le (c2 :: rest2)
          simp only [List.length_cons] at this ⊢
          omega
      · simp

theorem stripLogF_fuel_irrel (f1 : Nat) :
    ∀ (f2 : Nat) (cs : List Char), cs.length ≤ f1 → cs.length ≤ f2 →
      stripLogF f1 cs = stripLogF f2 cs := by
  induction f1 with
  | zero =>
      intro f2 cs h1 _
      have : cs = [] := by cases cs <;> simp_all
      subst this
      cases f2 <;> rfl
  | succ g1 ih =>
      intro f2 cs h1 h2
      cases cs with
      | nil => cases f2 <;> rfl
      | cons c rest =>
          cases f2 with
          | zero => simp at h2
          | succ g2 =>
              simp only [stripLogF]
              split
              · apply ih
                · have := List.length_drop 3 rest
                  simp only [List.length_cons] at h1
                  omega
                · have := List.length_drop 3 rest
                  simp only [List.length_cons] at h2
                  omega
              · rw [ih g2 rest (by simp at h1; omega) (by simp at h2; omega)]

theorem stripLog_nil : stripLog [] = [] := rfl

theorem stripLog_cons (c : Char) (rest : List Char) :
    stripLog (c :: rest) =
      if c = '.' ∧ rest.take 3 = ['l', 'o', 'g'] then stripLog (rest.drop 3)
      else c :: stripLog rest := by
  show stripLogF (rest.length + 1) (c :: rest) = _
  simp only [stripLogF]
  split
  · exact stripLogF_fuel_irrel _ _ _ (by have := List.length_drop 3 rest; omega)
      (le_refl _)
  · rfl

theorem stripColorsF_fuel_irrel (f1 : Nat) :
    ∀ (f2 : Nat) (cs : List Char), cs.length ≤ f1 → cs.length ≤ f2 →
      stripColorsF f1 cs = stripColorsF f2 cs := by
  induction f1 with
  | zero =>
      intro f2 cs h1 _
      have : cs = [] := by cases cs <;> simp_all
      subst this
      cases f2 <;> rfl
  | succ g1 ih =>
      intro f2 cs h1 h2
      cases cs with
      | nil => cases f2 <;> rfl
      | cons c rest =>
          cases f2 with
          | zero => simp at h2
          | succ g2 =>
              simp only [stripColorsF]
              split
              · apply ih
                · have := dropColorDigits_length_le rest
                  simp only [List.length_cons] at h1
                  omega
                · have := dropColorDigits_length_le rest
                  simp only [List.length_cons] at h2
                  omega
              · rw [ih g2 rest (by simp at h1; omega) (by simp at h2; omega)]

theorem stripColors_nil : stripColors [] = [] := rfl

theorem stripColors_cons (c : Char) (rest : List Char) :
    stripColors (c :: rest) =
      if c = '\x03' then stripColors (dropColorDigits rest)
      else c :: stripColors rest := by
  show stripColorsF (rest.length + 1) (c :: rest) = _
  simp only [stripColorsF]
  split
  · exact stripColorsF_fuel_irrel _ _ _
      (by have := dropColorDigits_length_le rest; omega) (le_refl _)
  · rfl

theorem stripColors_no03_aux :
    ∀ (n : Nat) (cs : List Char), cs.length ≤ n → '\x03' ∉ stripColors cs := by
  intro n
  induction n with
  | zero =>
      intro cs h
      have : cs = [] := by cases cs <;> simp_all
      subst this
      simp [stripColors_nil]
  | succ g ih =>
      intro cs h
      cases cs with
      | nil => simp [stripColors_nil]
      | cons c rest =>
          rw [stripColors_cons]
          split
          · exact ih _ (by
              have := dropColorDigits_length_le rest
              simp only [List.length_cons] at h
              omega)
          · intro hmem
            rcases List.mem_cons.mp hmem with h1 | h2
            · exact (by assumption : ¬ c = '\x03') h1.symm
            · exact ih rest (by simp only [List.length_cons] at h; omega) h2

/-- The color-stripping pass removes every `\x03` byte (the digit arguments
after it are optional in the pattern, so a bare `\x03` is still a match). -/
theorem stripColors_no03 (cs : List Char) : '\x03' ∉ stripColors cs :=
  stripColors_no03_aux cs.length cs (le_refl _)

/-- On input free of `\x03` the color-stripping pass is the identity. -/
theorem stripColors_id_of_no03 :
    ∀ cs : List Char, '\x03' ∉ cs → stripColors cs = cs
  | [], _ => stripColors_nil
  | c :: rest, h => by
      have hc : ¬ c = '\x03' := by
        intro hc
        exact h (hc ▸ List.mem_cons_self c rest)
      have hr : '\x03' ∉ rest := fun hm => h (List.mem_cons_of_mem c hm)
      rw [stripColors_cons, if_neg hc, stripColors_id_of_no03 rest hr]

theorem strip_irc_data (s : String) :
    (strip_irc_formatting s).data =
      (stripColors s.data).filter (fun c => !isToggle c) := rfl

/-- Every character surviving `strip_irc_formatting` is neither the color
escape byte nor a formatting toggle. -/
theorem mem_strip_irc {c : Char} {s : String}
    (h : c ∈ (strip_irc_formatting s).data) :
    c ≠ '\x03' ∧ isToggle c = false := by
  rw [strip_irc_data] at h
  have h1 := List.of_mem_filter h
  have h2 := List.mem_of_mem_filter h
  refine ⟨fun hc => stripColors_no03 s.data (hc ▸ h2), ?_⟩
  simpa using h1

/-- `strip_irc_formatting` is idempotent. -/
theorem strip_irc_idem (s : String) :
    strip_irc_formatting (strip_irc_formatting s) = strip_irc_formatting s := by
  have hdata := strip_irc_data s
  have hno : '\x03' ∉ (strip_irc_formatting s).data := by
    intro hmem
    exact (mem_strip_irc hmem).1 rfl
  have hcolors : stripColors (strip_irc_formatting s).data =
      (strip_irc_formatting s).data := stripColors_id_of_no03 _ hno
  have hfilter : ((strip_irc_formatting s).data).filter (fun c => !isToggle c) =
      (strip_irc_formatting s).data := by
    apply List.filter_eq_self.mpr
    intro a ha
    simpa using (mem_strip_irc ha).2
  show String.mk ((stripColors (strip_irc_formatting s).data).filter
      (fun c => !isToggle c)) = strip_irc_formatting s
  rw [hcolors, hfilter]

/-- C10.  The IRC-formatting normalizer `strip_irc_formatting` is
idempotent, and its output contains no color-code escape byte `\x03` and
none of the bold/italic/underline/reverse/reset toggle bytes. -/
theorem c10_strip_irc_formatting_idempotent_and_clean (s : String) :
    strip_irc_formatting (strip_irc_formatting s) = strip_irc_formatting s ∧
    ∀ c ∈ (strip_irc_formatting s).data, c ≠ '\x03' ∧ isToggle c = false :=
  ⟨strip_irc_idem s, fun _ hc => mem_strip_irc hc⟩

theorem countTriple_append (l1 l2 : List LogEntry) (n ch : String) (d : Date) :
    countTriple (l1 ++ l2) n ch d = countTriple l1 n ch d + countTriple l2 n ch d := by
  simp [countTriple, List.filter_append]

theorem fileEntries_length (n ch : String) (d : Date) (lines : List String) :
    (fileEntries n ch d lines).length = lines.length := by
  simp [fileEntries]

theorem mem_fileEntries {e : LogEntry} {n ch : String} {d : Date}
    {lines : List String} (h : e ∈ fileEntries n ch d lines) :
    e.network = n ∧ e.channel = ch ∧ e.date = d ∧
      ∃ l ∈ lines, e.content = strip_irc_formatting (pyRstrip l) := by
  simp only [fileEntries, List.mem_map] at h
  obtain ⟨p, hp, rfl⟩ := h
  have hmem : p.2 ∈ lines := by
    have := List.mem_enum_iff_getElem?.mp hp
    exact List.getElem?_mem this
  exact ⟨rfl, rfl, rfl, p.2, hmem, rfl⟩

theorem countTriple_fileEntries_zero (n ch : String) (d : Date)
    (lines : List String) (tN tC : String) (tD : Date)
    (h : ¬(n = tN ∧ ch = tC ∧ d = tD)) :
    countTriple (fileEntries n ch d lines) tN tC tD = 0 := by
  unfold countTriple
  rw [List.length_eq_zero, List.filter_eq_nil_iff]
  intro e he
  obtain ⟨h1, h2, h3, -⟩ := mem_fileEntries he
  intro hpred
  simp only [Bool.and_eq_true, beq_iff_eq] at hpred
  exact h ⟨h1 ▸ hpred.1.1, h2 ▸ hpred.1.2, h3 ▸ hpred.2⟩

/-- Case analysis of `importFile`: either it leaves the store untouched and
reports zero, or all the guards pass and it appends one row per raw line. -/
theorem importFile_cases (st : DB) (n ch : String) (force : Bool) (f : LogFile) :
    importFile st n ch force f = (st, 0) ∨
    ∃ d lines, parse_log_date f.1 = some d ∧ f.2 = some lines ∧ lines ≠ [] ∧
      (force = true ∨ countTriple st.entries n ch d = 0) ∧
      importFile st n ch force f =
        ({ st with entries := st.entries ++ fileEntries n ch d lines },
         lines.length) := by
  unfold importFile
  cases hp : parse_log_date f.1 with
  | none => exact Or.inl rfl
  | some d =>
      dsimp only
      by_cases hskip : force = false ∧ 0 < countTriple st.entries n ch d
      · rw [if_pos hskip]
        exact Or.inl rfl
      · rw [if_neg hskip]
        have hforce : force = true ∨ countTriple st.entries n ch d = 0 := by
          rcases Bool.eq_false_or_eq_true force with hf | hf
          · exact Or.inl hf
          · right
            by_contra hcnt
            exact hskip ⟨hf, Nat.pos_of_ne_zero hcnt⟩
        cases hl : f.2 with
        | none => exact Or.inl rfl
        | some lines =>
            dsimp only
            by_cases hne : lines = []
            · rw [if_pos hne]
              exact Or.inl rfl
            · rw [if_neg hne]
              refine Or.inr ⟨d, lines, rfl, rfl, hne, hforce, ?_⟩
              rw [fileEntries_length]

/-- A file whose read raises is skipped with nothing inserted. -/
theorem importFile_read_error (st : DB) (n ch : String) (force : Bool)
    (fname : String) :
    importFile st n ch force (fname, (none : Option (List String))) = (st, 0) := by
  unfold importFile
  cases parse_log_date fname with
  | none => rfl
  | some d =>
      dsimp only
      by_cases hskip : force = false ∧ 0 < countTriple st.entries n ch d
      · rw [if_pos hskip]
      · rw [if_neg hskip]

/-- A triple that already has rows keeps its exact row count across
`importFile` when not forcing. -/
theorem importFile_count_eq (st : DB) (n ch : String) (f : LogFile)
    (tN tC : String) (tD : Date)
    (h : 0 < countTriple st.entries tN tC tD) :
    countTriple ((importFile st n ch false f).1).entries tN tC tD =
      countTriple st.entries tN tC tD := by
  rcases importFile_cases st n ch false f with heq | ⟨d, lines, hp, hl, hne, hforce, heq⟩
  · rw [heq]
  · rw [heq]
    simp only
    rw [countTriple_append]
    have hzero : countTriple st.entries n ch d = 0 := by
      rcases hforce with hf | hf
      · cases hf
      · exact hf
    have hdiff : ¬(n = tN ∧ ch = tC ∧ d = tD) := by
      rintro ⟨rfl, rfl, rfl⟩
      omega
    rw [countTriple_fileEntries_zero n ch d lines tN tC tD hdiff]
    omega

theorem processFiles_count_eq (n ch : String) :
    ∀ (files : List LogFile) (st : DB) (tN tC : String) (tD : Date),
      0 < countTriple st.entries tN tC tD →
      countTriple ((processFiles st n ch false files).1).entries tN tC tD =
        countTriple st.entries tN tC tD
  | [], st, tN, tC, tD, _ => rfl
  | f :: fs, st, tN, tC, tD, h => by
      simp only [processFiles]
      have h1 := importFile_count_eq st n ch f tN tC tD h
      have h2 := processFiles_count_eq n ch fs (importFile st n ch false f).1
        tN tC tD (by omega)
      rw [h2, h1]

theorem processChannel_count_eq (st : DB) (n : String) (ch : ChannelDir)
    (tN tC : String) (tD : Date) (h : 0 < countTriple st.entries tN tC tD) :
    countTriple ((processChannel st n false ch).1).entries tN tC tD =
      countTriple st.entries tN tC tD := by
  unfold processChannel
  exact processFiles_count_eq n ch.1 _ _ tN tC tD h

theorem processChannels_count_eq (n : String) :
    ∀ (chans : List ChannelDir) (st : DB) (tN tC : String) (tD : Date),
      0 < countTriple st.entries tN tC tD →
      countTriple ((processChannels st n false chans).1).entries tN tC tD =
        countTriple st.entries tN tC tD
  | [], st, tN, tC, tD, _ => rfl
  | ch :: rest, st, tN, tC, tD, h => by
      simp only [processChannels]
      have h1 := processChannel_count_eq st n ch tN tC tD h
      have h2 := processChannels_count_eq n rest (processChannel st n false ch).1
        tN tC tD (by omega)
      rw [h2, h1]

/-- Importing a network without force never changes the row count of a
(network, channel, date) triple that already has rows. -/
theorem import_network_count_eq (st : DB) (fs : List ChannelDir)
    (net : String) (tN tC : String) (tD : Date)
    (h : 0 < countTriple st.entries tN tC tD) :
    countTriple ((import_network st fs net false).1).entries tN tC tD =
      countTriple st.entries tN tC tD := by
  unfold import_network
  exact processChannels_count_eq net _ _ tN tC tD h

/-- `importFile` only ever appends rows, and reports exactly how many. -/
theorem importFile_new (st : DB) (n ch : String) (force : Bool) (f : LogFile) :
    ∃ new, ((importFile st n ch force f).1).entries = st.entries ++ new ∧
      new.length = (importFile st n ch force f).2 := by
  rcases importFile_cases st n ch force f with heq | ⟨d, lines, _, _, _, _, heq⟩
  · exact ⟨[], by rw [heq]; simp⟩
  · exact ⟨fileEntries n ch d lines, by rw [heq]; simp [fileEntries_length]⟩

theorem processFiles_new (n ch : String) (force : Bool) :
    ∀ (files : List LogFile) (st : DB),
      ∃ new, ((processFiles st n ch force files).1).entries = st.entries ++ new ∧
        new.length = (processFiles st n ch force files).2
  | [], st => ⟨[], by simp [processFiles]⟩
  | f :: fs, st => by
      simp only [processFiles]
      obtain ⟨n1, he1, hl1⟩ := importFile_new st n ch force f
      obtain ⟨n2, he2, hl2⟩ := processFiles_new n ch force fs (importFile st n ch force f).1
      exact ⟨n1 ++ n2, by rw [he2, he1, List.append_assoc], by
        simp only [List.length_append]
        omega⟩

theorem processChannel_new (st : DB) (n : String) (force : Bool) (ch : ChannelDir) :
    ∃ new, ((processChannel st n force ch).1).entries = st.entries ++ new ∧
      new.length = (processChannel st n force ch).2 := by
  unfold processChannel
  exact processFiles_new n ch.1 force _ _

theorem processChannels_new (n : String) (force : Bool) :
    ∀ (chans : List ChannelDir) (st : DB),
      ∃ new, ((processChannels st n force chans).1).entries = st.entries ++ new ∧
        new.length = (processChannels st n force chans).2
  | [], st => ⟨[], by simp [processChannels]⟩
  | ch :: rest, st => by
      simp only [processChannels]
      obtain ⟨n1, he1, hl1⟩ := processChannel_new st n force ch
      obtain ⟨n2, he2, hl2⟩ := processChannels_new n force rest (processChannel st n force ch).1
      exact ⟨n1 ++ n2, by rw [he2, he1, List.append_assoc], by
        simp only [List.length_append]
        omega⟩

/-- `import_network` appends exactly the rows it reports as inserted. -/
theorem import_network_new (st : DB) (fs : List ChannelDir) (net : String)
    (force : Bool) :
    ∃ new, ((import_network st fs net force).1).entries = st.entries ++ new ∧
      new.length = (import_network st fs net force).2 := by
  unfold import_network
  exact processChannels_new net force _ _

/-- Rows present after `importFile` either were present before or carry a
normalized line of the processed file. -/
theorem importFile_mem (st : DB) (n ch : String) (force : Bool) (f : LogFile)
    (e : LogEntry) (h : e ∈ ((importFile st n ch force f).1).entries) :
    e ∈ st.entries ∨ ∃ l : String, e.content = strip_irc_formatting (pyRstrip l) := by
  rcases importFile_cases st n ch force f with heq | ⟨d, lines, _, _, _, _, heq⟩
  · rw [heq] at h
    exact Or.inl h
  · rw [heq] at h
    simp only at h
    rcases List.mem_append.mp h with h1 | h2
    · exact Or.inl h1
    · obtain ⟨-, -, -, l, -, hc⟩ := mem_fileEntries h2
      exact Or.inr ⟨l, hc⟩

theorem processFiles_mem (n ch : String) (force : Bool) :
    ∀ (files : List LogFile) (st : DB) (e : LogEntry),
      e ∈ ((processFiles st n ch force files).1).entries →
      e ∈ st.entries ∨ ∃ l : String, e.content = strip_irc_formatting (pyRstrip l)
  | [], st, e, h => Or.inl h
  | f :: fs, st, e, h => by
      simp only [processFiles] at h
      rcases processFiles_mem n ch force fs (importFile st n ch force f).1 e h with h1 | h2
      · exact importFile_mem st n ch force f e h1
      · exact Or.inr h2

theorem processChannels_mem (n : String) (force : Bool) :
    ∀ (chans : List ChannelDir) (st : DB) (e : LogEntry),
      e ∈ ((processChannels st n force chans).1).entries →
      e ∈ st.entries ∨ ∃ l : String, e.content = strip_irc_formatting (pyRstrip l)
  | [], st, e, h => Or.inl h
  | ch :: rest, st, e, h => by
      simp only [processChannels] at h
      rcases processChannels_mem n force rest (processChannel st n force ch).1 e h with h1 | h2
      · unfold processChannel at h1
        dsimp only at h1
        exact processFiles_mem n ch.1 force _
          { st with channels := insertIgnoreChannel st.channels n ch.1 } e h1
      · exact Or.inr h2

/-- Every row present after `import_network` either predates the run or has
content of the form `strip_irc_formatting(line.rstrip())`. -/
theorem import_network_mem (st : DB) (fs : List ChannelDir) (net : String)
    (force : Bool) (e : LogEntry)
    (h : e ∈ ((import_network st fs net force).1).entries) :
    e ∈ st.entries ∨ ∃ l : String, e.content = strip_irc_formatting (pyRstrip l) := by
  unfold import_network at h
  dsimp only at h
  exact processChannels_mem net force _
    { st with networks := upsertNetwork st.networks net (displayNameFor net) } e h

theorem processFiles_skip_error (n ch : String) (force : Bool) (fname : String) :
    ∀ (files1 : List LogFile) (files2 : List LogFile) (st : DB),
      processFiles st n ch force
          (files1 ++ (fname, (none : Option (List String))) :: files2) =
        processFiles st n ch force (files1 ++ files2)
  | [], files2, st => by
      simp only [List.nil_append, processFiles, importFile_read_error]
      simp
  | f :: fs, files2, st => by
      simp only [List.cons_append, processFiles]
      rw [show fs.append ((fname, (none : Option (List String))) :: files2) =
            fs ++ (fname, (none : Option (List String))) :: files2 from rfl,
          processFiles_skip_error n ch force fname fs files2 (importFile st n ch force f).1]
      rfl

/-- C1.  Counterexample: the claim's Line Filter would discard the system
announcement `[08:00:00] *** Joins: bob` (rule 2/3, as `specLineDiscards`
confirms), but the importer persists it: importing a file containing only
that line stores it verbatim. -/
theorem c1_counterexample :
    specLineDiscards "[08:00:00] *** Joins: bob" = true ∧
    ((import_network emptyDB
        [("#chan", [("2025-01-01.log", some ["[08:00:00] *** Joins: bob"])])]
        "net" false).1).entries =
      [⟨"net", "#chan", ⟨2025, 1, 1⟩, 1, "[08:00:00] *** Joins: bob"⟩] := by
  decide

/-- C1 (amended).  The importer's per-line processing discards nothing:
when a file is processed (date parsed, not skipped as already imported, read
successfully, non-empty), every raw line is persisted, numbered `i+1` over
all lines, normalized only by `rstrip` and IRC-formatting removal. -/
theorem c1_import_keeps_every_line (st : DB) (n ch : String) (force : Bool)
    (name : String) (lines : List String) (d : Date)
    (hd : parse_log_date name = some d)
    (hskip : force = true ∨ countTriple st.entries n ch d = 0)
    (hne : lines ≠ []) :
    importFile st n ch force (name, some lines) =
      ({ st with entries := st.entries ++
          lines.enum.map (fun p => ⟨n, ch, d, p.1 + 1,
            strip_irc_formatting (pyRstrip p.2)⟩) },
       lines.length) := by
  unfold importFile
  dsimp only
  rw [hd]
  dsimp only
  rw [if_neg (by
    rintro ⟨hf, hcnt⟩
    rcases hskip with h1 | h1
    · rw [h1] at hf
      cases hf
    · omega)]
  rw [if_neg hne, fileEntries_length]
  rfl

theorem c1_witness :
    parse_log_date "2025-01-01.log" = some ⟨2025, 1, 1⟩ ∧
    importFile emptyDB "net" "#chan" false ("2025-01-01.log", some ["hi"]) =
      ({ emptyDB with entries := emptyDB.entries ++
          (["hi"].enum.map (fun p => ⟨"net", "#chan", ⟨2025, 1, 1⟩, p.1 + 1,
            strip_irc_formatting (pyRstrip p.2)⟩)) },
       (["hi"] : List String).length) :=
  ⟨by decide,
   c1_import_keeps_every_line emptyDB "net" "#chan" false "2025-01-01.log"
     ["hi"] ⟨2025, 1, 1⟩ (by decide) (Or.inr (by decide)) (by decide)⟩

/-- C2.  Counterexample: importing the scenario file stores three entries,
not exactly one, so the claim fails on the code. -/
theorem c2_counterexample :
    (import_network emptyDB scenarioC2 "net" false).1.entries.length = 3 ∧
    (import_network emptyDB scenarioC2 "net" false).1.entries.length ≠ 1 := by
  decide

/-- C2 (amended).  Importing the scenario's channel directory stores one
entry per raw line: three entries, numbered 1..3 over all lines, each with
its leading timestamp retained (only trailing whitespace and IRC formatting
are stripped). -/
theorem c2_import_scenario :
    (import_network emptyDB scenarioC2 "net" false).1.entries =
      [⟨"net", "#chan", ⟨2025, 1, 1⟩, 1, "[08:00:00] *** Joins: bob"⟩,
       ⟨"net", "#chan", ⟨2025, 1, 1⟩, 2, "[08:00:05] <bob> hello"⟩,
       ⟨"net", "#chan", ⟨2025, 1, 1⟩, 3, "[08:00:10] <NickServ> notice"⟩] := by
  decide

/-- C7.  Re-importing the same network without force is a no-op on row
counts: every (network, channel, date) triple that has at least one row
after the first run has exactly the same count after the second run. -/
theorem c7_reimport_without_force_noop (st0 : DB) (fs : List ChannelDir)
    (net : String) (ff : Bool) (tN tC : String) (tD : Date)
    (h : 0 < countTriple ((import_network st0 fs net ff).1).entries tN tC tD) :
    countTriple
        ((import_network (import_network st0 fs net ff).1 fs net false).1).entries
        tN tC tD =
      countTriple ((import_network st0 fs net ff).1).entries tN tC tD :=
  import_network_count_eq _ fs net tN tC tD h

theorem c7_witness :
    0 < countTriple ((import_network emptyDB scenarioC2 "net" false).1).entries
        "net" "#chan" ⟨2025, 1, 1⟩ ∧
    countTriple
        ((import_network (import_network emptyDB scenarioC2 "net" false).1
          scenarioC2 "net" false).1).entries "net" "#chan" ⟨2025, 1, 1⟩ =
      countTriple ((import_network emptyDB scenarioC2 "net" false).1).entries
        "net" "#chan" ⟨2025, 1, 1⟩ :=
  ⟨by decide,
   c7_reimport_without_force_noop emptyDB scenarioC2 "net" false "net" "#chan"
     ⟨2025, 1, 1⟩ (by decide)⟩

/-- C8.  Counterexample: a file consisting of one empty line is imported as
one row whose content is the empty string, so stored content is not always
non-empty. -/
theorem c8_counterexample :
    (import_network emptyDB [("#chan", [("2025-01-01.log", some [""])])]
        "net" false).1.entries =
      [⟨"net", "#chan", ⟨2025, 1, 1⟩, 1, ""⟩] ∧
    ¬ (∀ e ∈ (import_network emptyDB
          [("#chan", [("2025-01-01.log", some [""])])] "net" false).1.entries,
        e.content ≠ "") := by
  decide

/-- C8 (amended).  Every row stored by `import_network` (beyond those already
in the store) has transport formatting stripped from its content: no color
escape byte and no formatting toggle survives.  Content may, however, be the
empty string (blank lines are stored). -/
theorem c8_stored_content_formatting_stripped (st : DB) (fs : List ChannelDir)
    (net : String) (force : Bool) (e : LogEntry)
    (h : e ∈ ((import_network st fs net force).1).entries) :
    e ∈ st.entries ∨ ∀ c ∈ e.content.data, c ≠ '\x03' ∧ isToggle c = false := by
  rcases import_network_mem st fs net force e h with h1 | ⟨l, hc⟩
  · exact Or.inl h1
  · right
    intro c hcmem
    rw [hc] at hcmem
    exact mem_strip_irc hcmem

theorem c8_witness :
    (⟨"net", "#chan", ⟨2025, 1, 1⟩, 1, "hi"⟩ : LogEntry) ∈
      ((import_network emptyDB [("#chan", [("2025-01-01.log", some ["hi"])])]
        "net" false).1).entries ∧
    ((⟨"net", "#chan", ⟨2025, 1, 1⟩, 1, "hi"⟩ : LogEntry) ∈ emptyDB.entries ∨
      ∀ c ∈ ("hi" : String).data, c ≠ '\x03' ∧ isToggle c = false) :=
  ⟨by decide,
   c8_stored_content_formatting_stripped emptyDB
     [("#chan", [("2025-01-01.log", some ["hi"])])] "net" false
     ⟨"net", "#chan", ⟨2025, 1, 1⟩, 1, "hi"⟩ (by decide)⟩

/-- C9.  `import_network` returns exactly the number of rows it appended
(rows from earlier files and earlier runs remain, since the store only
grows by appending), and a file whose read raises is skipped with the run
continuing unchanged: processing a file list with a failing file inserted
anywhere equals processing the list without it. -/
theorem c9_returns_count_and_survives_file_errors :
    (∀ (st : DB) (fs : List ChannelDir) (net : String) (force : Bool),
      ∃ new, ((import_network st fs net force).1).entries = st.entries ++ new ∧
        new.length = (import_network st fs net force).2) ∧
    (∀ (st : DB) (n ch : String) (force : Bool) (fname : String)
        (files1 files2 : List LogFile),
      processFiles st n ch force
          (files1 ++ (fname, (none : Option (List String))) :: files2) =
        processFiles st n ch force (files1 ++ files2)) :=
  ⟨fun st fs net force => import_network_new st fs net force,
   fun st n ch force fname files1 files2 =>
     processFiles_skip_error n ch force fname files1 files2 st⟩

theorem toNat_digitChar {k : Nat} (h : k < 10) : (Nat.digitChar k).toNat = 48 + k := by
  interval_cases k <;> decide

theorem isDig_digitChar {k : Nat} (h : k < 10) : isDig (Nat.digitChar k) = true := by
  interval_cases k <;> decide

theorem dval_digitChar {k : Nat} (h : k < 10) : dval (Nat.digitChar k) = k := by
  interval_cases k <;> decide

theorem digitChar_ne_dot {k : Nat} (h : k < 10) : Nat.digitChar k ≠ '.' := by
  interval_cases k <;> decide

theorem digitChar_ne_underscore {k : Nat} (h : k < 10) : Nat.digitChar k ≠ '_' := by
  interval_cases k <;> decide

theorem pad2_eq (n : Nat) :
    pad 2 n = [Nat.digitChar (n / 10 % 10), Nat.digitChar (n % 10)] := by
  simp [pad]

theorem pad4_eq (n : Nat) :
    pad 4 n = [Nat.digitChar (n / 1000 % 10), Nat.digitChar (n / 100 % 10),
      Nat.digitChar (n / 10 % 10), Nat.digitChar (n % 10)] := by
  simp [pad, Nat.div_div_eq_div_mul]

theorem month2ok_pad {m : Nat} (h1 : 1 ≤ m) (h2 : m ≤ 12) :
    month2ok (Nat.digitChar (m / 10 % 10)) (Nat.digitChar (m % 10)) = true := by
  interval_cases m <;> decide

theorem day2ok_pad {d : Nat} (h1 : 1 ≤ d) (h2 : d ≤ 31) :
    day2ok (Nat.digitChar (d / 10 % 10)) (Nat.digitChar (d % 10)) = true := by
  interval_cases d <;> decide

theorem daysInMonth_le_31 (y m : Nat) : daysInMonth y m ≤ 31 := by
  unfold daysInMonth
  split
  · split <;> omega
  · split <;> omega

theorem mkDate_pos (y m d : Nat) (hy1 : 1 ≤ y) (hy : y ≤ 9999) (hm1 : 1 ≤ m)
    (hm : m ≤ 12) (hd1 : 1 ≤ d) (hd : d ≤ daysInMonth y m) :
    mkDate y m d = some ⟨y, m, d⟩ := by
  unfold mkDate
  rw [if_pos ⟨hy1, hy, hm1, hm, hd1, hd⟩]

/-- Dashed-format evaluation on a zero-padded valid date. -/
theorem strptimeDashed_pad (y m d : Nat) (hy1 : 1 ≤ y) (hy : y ≤ 9999)
    (hm1 : 1 ≤ m) (hm : m ≤ 12) (hd1 : 1 ≤ d) (hd : d ≤ daysInMonth y m) :
    strptimeDashed (pad 4 y ++ '-' :: pad 2 m ++ '-' :: pad 2 d) =
      some ⟨y, m, d⟩ := by
  have hd31 : d ≤ 31 := le_trans hd (daysInMonth_le_31 y m)
  have l10 : (0 : Nat) < 10 := by omega
  rw [pad4_eq, pad2_eq, pad2_eq]
  simp only [List.cons_append, List.nil_append]
  simp only [strptimeDashed]
  rw [isDig_digitChar (Nat.mod_lt _ l10), isDig_digitChar (Nat.mod_lt _ l10),
      isDig_digitChar (Nat.mod_lt _ l10), isDig_digitChar (Nat.mod_lt _ l10)]
  simp only [Bool.and_self, if_true]
  rw [dval_digitChar (Nat.mod_lt _ l10), dval_digitChar (Nat.mod_lt _ l10),
      dval_digitChar (Nat.mod_lt _ l10), dval_digitChar (Nat.mod_lt _ l10)]
  have hyv : 1000 * (y / 1000 % 10) + 100 * (y / 100 % 10) + 10 * (y / 10 % 10) +
      y % 10 = y := by omega
  rw [hyv]
  simp only [dashedMD]
  rw [month2ok_pad hm1 hm]
  simp only [if_true]
  simp only [dayScan]
  rw [day2ok_pad hd1 hd31]
  simp only [if_true, if_pos rfl]
  rw [dval_digitChar (Nat.mod_lt _ l10), dval_digitChar (Nat.mod_lt _ l10),
      dval_digitChar (Nat.mod_lt _ l10), dval_digitChar (Nat.mod_lt _ l10)]
  have hmv : 10 * (m / 10 % 10) + m % 10 = m := by omega
  have hdv : 10 * (d / 10 % 10) + d % 10 = d := by omega
  rw [hmv, hdv, mkDate_pos y m d hy1 hy hm1 hm hd1 hd]

/-- Compact-format evaluation on a zero-padded valid date. -/
theorem strptimeCompact_pad (y m d : Nat) (hy1 : 1 ≤ y) (hy : y ≤ 9999)
    (hm1 : 1 ≤ m) (hm : m ≤ 12) (hd1 : 1 ≤ d) (hd : d ≤ daysInMonth y m) :
    strptimeCompact (pad 4 y ++ pad 2 m ++ pad 2 d) = some ⟨y, m, d⟩ := by
  have hd31 : d ≤ 31 := le_trans hd (daysInMonth_le_31 y m)
  have l10 : (0 : Nat) < 10 := by omega
  rw [pad4_eq, pad2_eq, pad2_eq]
  simp only [List.cons_append, List.nil_append]
  simp only [strptimeCompact]
  rw [isDig_digitChar (Nat.mod_lt _ l10), isDig_digitChar (Nat.mod_lt _ l10),
      isDig_digitChar (Nat.mod_lt _ l10), isDig_digitChar (Nat.mod_lt _ l10)]
  simp only [Bool.and_self, if_true]
  rw [dval_digitChar (Nat.mod_lt _ l10), dval_digitChar (Nat.mod_lt _ l10),
      dval_digitChar (Nat.mod_lt _ l10), dval_digitChar (Nat.mod_lt _ l10)]
  have hyv : 1000 * (y / 1000 % 10) + 100 * (y / 100 % 10) + 10 * (y / 10 % 10) +
      y % 10 = y := by omega
  rw [hyv]
  simp only [compactMD]
  rw [month2ok_pad hm1 hm]
  simp only [if_true]
  simp only [dayScan]
  rw [day2ok_pad hd1 hd31]
  simp only [if_true, if_pos rfl]
  rw [dval_digitChar (Nat.mod_lt _ l10), dval_digitChar (Nat.mod_lt _ l10),
      dval_digitChar (Nat.mod_lt _ l10), dval_digitChar (Nat.mod_lt _ l10)]
  have hmv : 10 * (m / 10 % 10) + m % 10 = m := by omega
  have hdv : 10 * (d / 10 % 10) + d % 10 = d := by omega
  rw [hmv, hdv, mkDate_pos y m d hy1 hy hm1 hm hd1 hd]

theorem underscore_toNat : ('_').toNat = 95 := rfl

theorem isDig_char_facts {c : Char} (h : isDig c = true) : c ≠ '_' := by
  rintro rfl
  rw [show isDig '_' = false from rfl] at h
  cases h

theorem digit19_char_facts {c : Char} (h : digit19 c = true) : c ≠ '_' := by
  rintro rfl
  rw [show digit19 '_' = false from rfl] at h
  cases h

theorem month2ok_chars {c1 c2 : Char} (h : month2ok c1 c2 = true) :
    c1 ≠ '_' ∧ c2 ≠ '_' := by
  simp only [month2ok, Bool.or_eq_true, Bool.and_eq_true, decide_eq_true_eq,
    digit19] at h
  constructor
  · rintro rfl
    rw [underscore_toNat] at h
    omega
  · rintro rfl
    rw [underscore_toNat] at h
    omega

theorem day2ok_chars {c1 c2 : Char} (h : day2ok c1 c2 = true) :
    c1 ≠ '_' ∧ c2 ≠ '_' := by
  simp only [day2ok, Bool.or_eq_true, Bool.and_eq_true, decide_eq_true_eq,
    digit19, isDig] at h
  constructor
  · rintro rfl
    rw [underscore_toNat] at h
    omega
  · rintro rfl
    rw [underscore_toNat] at h
    omega

/-- A complete day-group match consumes only digit characters. -/
theorem dayScan_full_no_underscore :
    ∀ {l : List Char} {d : Nat}, dayScan l = some (d, []) → '_' ∉ l := by
  intro l d h
  match l with
  | [] => simp [dayScan] at h
  | [d1] =>
      simp only [dayScan] at h
      split at h
      · rename_i hdig
        intro hmem
        simp only [List.mem_singleton] at hmem
        subst hmem
        rw [show digit19 '_' = false from rfl] at hdig
        cases hdig
      · cases h
  | d1 :: d2 :: rest =>
      simp only [dayScan] at h
      split at h
      · rename_i hok
        have hp : (10 * dval d1 + dval d2, rest) = (d, ([] : List Char)) := by
          injection h
        have hrest : rest = [] := congrArg Prod.snd hp
        subst hrest
        intro hmem
        have hc := day2ok_chars hok
        rcases List.mem_cons.mp hmem with h1 | h2
        · exact hc.1 h1.symm
        · rcases List.mem_cons.mp h2 with h3 | h4
          · exact hc.2 h3.symm
          · cases h4
      · split at h
        · have hp : (dval d1, d2 :: rest) = (d, ([] : List Char)) := by
            injection h
          have hnil : d2 :: rest = ([] : List Char) := congrArg Prod.snd hp
          cases hnil
        · cases h

/-- The dashed format never matches a string containing an underscore. -/
theorem strptimeDashed_underscore : ∀ {cs : List Char}, '_' ∈ cs →
    strptimeDashed cs = none := by
  intro cs hmem
  unfold strptimeDashed
  split
  · rename_i y1 y2 y3 y4 rest
    split
    · rename_i hdig
      simp only [Bool.and_eq_true] at hdig
      obtain ⟨⟨⟨hd1, hd2⟩, hd3⟩, hd4⟩ := hdig
      have hrest : '_' ∈ rest := by
        simp only [List.mem_cons] at hmem
        rcases hmem with h | h | h | h | h | h
        · exact absurd h.symm (isDig_char_facts hd1)
        · exact absurd h.symm (isDig_char_facts hd2)
        · exact absurd h.symm (isDig_char_facts hd3)
        · exact absurd h.symm (isDig_char_facts hd4)
        · cases h
        · exact h
      clear hmem
      unfold dashedMD
      split
      · rename_i m1 m2 rest2
        split
        · rename_i hm2ok
          have hcm := month2ok_chars hm2ok
          have hrest2 : '_' ∈ rest2 := by
            simp only [List.mem_cons] at hrest
            rcases hrest with h | h | h
            · exact absurd h.symm hcm.1
            · exact absurd h.symm hcm.2
            · exact h
          split
          · rename_i rest3
            have hrest3 : '_' ∈ rest3 := by
              simp only [List.mem_cons] at hrest2
              rcases hrest2 with h | h
              · cases h
              · exact h
            split
            · rename_i d leftover hscan
              split
              · rename_i hleft
                subst hleft
                exact absurd hrest3 (dayScan_full_no_underscore hscan)
              · rfl
            · rfl
          · rfl
        · split
          · rename_i hm1
            have hne2 : m2 ≠ '_' := by
              rw [hm1.2]
              decide
            have hrest2 : '_' ∈ rest2 := by
              simp only [List.mem_cons] at hrest
              rcases hrest with h | h | h
              · exact absurd h.symm (digit19_char_facts hm1.1)
              · exact absurd h.symm hne2
              · exact h
            split
            · rename_i d leftover hscan
              split
              · rename_i hleft
                subst hleft
                exact absurd hrest2 (dayScan_full_no_underscore hscan)
              · rfl
            · rfl
          · rfl
      · rfl
    · rfl
  · rfl

theorem stripLog_cons_underscore (tail : List Char) :
    stripLog ('_' :: tail) = '_' :: stripLog tail := by
  rw [stripLog_cons, if_neg]
  rintro ⟨h, -⟩
  exact absurd h (by decide)

/-- Stripping `.log` from a string free of dots followed by a final `.log`
removes exactly the final occurrence. -/
theorem stripLog_append_dotlog :
    ∀ s : List Char, (∀ c ∈ s, c ≠ '.') →
      stripLog (s ++ ['.', 'l', 'o', 'g']) = s := by
  intro s
  induction s with
  | nil =>
      intro _
      decide
  | cons c rest ih =>
      intro h
      rw [List.cons_append, stripLog_cons, if_neg, ih
        (fun x hx => h x (List.mem_cons_of_mem c hx))]
      rintro ⟨hc, -⟩
      exact h c (List.mem_cons_self c rest) hc

theorem stripLog_short : ∀ l : List Char, l.length ≤ 3 → stripLog l = l
  | [], _ => rfl
  | c :: rest, h => by
      have hr : rest.length ≤ 2 := by
        simp only [List.length_cons] at h
        omega
      rw [stripLog_cons, if_neg, stripLog_short rest (by omega)]
      rintro ⟨-, htake⟩
      have h3 : (rest.take 3).length = 3 := by
        rw [htake]
        rfl
      rw [List.length_take] at h3
      omega

theorem stripLog_sep_aux :
    ∀ (n : Nat) (p tail : List Char), p.length ≤ n →
      stripLog (p ++ '_' :: tail) = stripLog p ++ '_' :: stripLog tail := by
  intro n
  induction n with
  | zero =>
      intro p tail hp
      have hp0 : p = [] := by cases p <;> simp_all
      subst hp0
      rw [List.nil_append, stripLog_cons_underscore, stripLog_nil,
        List.nil_append]
  | succ g ih =>
      intro p tail hp
      match p with
      | [] =>
          rw [List.nil_append, stripLog_cons_underscore, stripLog_nil,
            List.nil_append]
      | [c] =>
          rw [show ([c] ++ '_' :: tail) = c :: '_' :: tail from rfl,
            stripLog_cons c ('_' :: tail), if_neg (by
              rintro ⟨-, h⟩
              simp only [List.take_succ_cons, List.cons.injEq] at h
              exact absurd h.1 (by decide)),
            stripLog_cons_underscore, stripLog_short [c] (by simp)]
          rfl
      | [c, a] =>
          rw [show ([c, a] ++ '_' :: tail) = c :: a :: '_' :: tail from rfl,
            stripLog_cons c (a :: '_' :: tail), if_neg (by
              rintro ⟨-, h⟩
              simp only [List.take_succ_cons, List.cons.injEq] at h
              exact absurd h.2.1 (by decide)),
            stripLog_cons a ('_' :: tail), if_neg (by
              rintro ⟨-, h⟩
              simp only [List.take_succ_cons, List.cons.injEq] at h
              exact absurd h.1 (by decide)),
            stripLog_cons_underscore, stripLog_short [c, a] (by simp)]
          rfl
      | [c, a, b] =>
          rw [show ([c, a, b] ++ '_' :: tail) = c :: a :: b :: '_' :: tail from
              rfl,
            stripLog_cons c (a :: b :: '_' :: tail), if_neg (by
              rintro ⟨-, h⟩
              simp only [List.take_succ_cons, List.take_zero,
                List.cons.injEq] at h
              exact absurd h.2.2.1 (by decide)),
            stripLog_cons a (b :: '_' :: tail), if_neg (by
              rintro ⟨-, h⟩
              simp only [List.take_succ_cons, List.cons.injEq] at h
              exact absurd h.2.1 (by decide)),
            stripLog_cons b ('_' :: tail), if_neg (by
              rintro ⟨-, h⟩
              simp only [List.take_succ_cons, List.cons.injEq] at h
              exact absurd h.1 (by decide)),
            stripLog_cons_underscore, stripLog_short [c, a, b] (by simp)]
          rfl
      | c :: x1 :: x2 :: x3 :: xs =>
          have hlen : xs.length + 4 ≤ g + 1 := by
            simpa using hp
          rw [show ((c :: x1 :: x2 :: x3 :: xs) ++ '_' :: tail) =
                c :: x1 :: x2 :: x3 :: (xs ++ '_' :: tail) from by simp,
            stripLog_cons c (x1 :: x2 :: x3 :: (xs ++ '_' :: tail)),
            stripLog_cons c (x1 :: x2 :: x3 :: xs)]
          simp only [List.take_succ_cons, List.take_zero, List.drop_succ_cons,
            List.drop_zero]
          split
          · exact ih xs tail (by omega)
          · rw [show stripLog (x1 :: x2 :: x3 :: (xs ++ '_' :: tail)) =
                  stripLog ((x1 :: x2 :: x3 :: xs) ++ '_' :: tail) from
                congrArg stripLog (by simp),
              ih (x1 :: x2 :: x3 :: xs) tail (by
                simp only [List.length_cons]
                omega)]
            rfl

/-- Stripping `.log` distributes over an underscore separator: occurrences
cannot span the underscore. -/
theorem stripLog_sep (p tail : List Char) :
    stripLog (p ++ '_' :: tail) = stripLog p ++ '_' :: stripLog tail :=
  stripLog_sep_aux p.length p tail (le_refl _)

theorem lastSeg_no_underscore :
    ∀ cs : List Char, '_' ∉ cs → lastSeg cs = cs
  | [], _ => rfl
  | c :: rest, h => by
      simp only [lastSeg]
      rw [if_neg h]

/-- The last underscore-separated segment of `s ++ '_' :: tail` is `tail`
when `tail` has no underscore. -/
theorem lastSeg_append (s tail : List Char) (h : '_' ∉ tail) :
    lastSeg (s ++ '_' :: tail) = tail := by
  induction s with
  | nil =>
      simp only [List.nil_append, lastSeg]
      rw [if_pos (List.mem_cons_self _ _), lastSeg_no_underscore tail h]
  | cons c s2 ih =>
      rw [List.cons_append]
      simp only [lastSeg]
      rw [if_pos, ih]
      exact List.mem_cons_of_mem c
        (List.mem_append_right s2 (List.mem_cons_self '_' tail))

/-- C3.  Counterexample: `20250101.log` has neither of the claim's two
accepted shapes (no dashes, no underscore), yet `parse_log_date` returns the
date 2025-01-01 rather than the unparseable signal, because the compact
parse is also attempted on names without an underscore. -/
theorem c3_counterexample :
    isDashedForm "20250101.log" = false ∧
    isUnderscoreForm "20250101.log" = false ∧
    parse_log_date "20250101.log" = some ⟨2025, 1, 1⟩ := by
  decide

/-- C3 (amended).  The two positive halves of the claim hold: every filename
`YYYY-MM-DD.log` denoting a valid zero-padded calendar date parses to exactly
that date, and every filename `<prefix>_YYYYMMDD.log` (arbitrary prefix)
parses to that date; the parser is total, so no exception propagates.  The
exhaustiveness half is dropped: other shapes (for example `YYYYMMDD.log`,
or flexible digit counts such as `2025-1-2.log`) can also return dates. -/
theorem c3_parse_log_date_accepted_forms :
    (∀ y m d : Nat, 1 ≤ y → y ≤ 9999 → 1 ≤ m → m ≤ 12 → 1 ≤ d →
      d ≤ daysInMonth y m →
      parse_log_date (String.mk (pad 4 y ++ '-' :: pad 2 m ++ '-' :: pad 2 d ++
        ['.', 'l', 'o', 'g'])) = some ⟨y, m, d⟩) ∧
    (∀ (p : List Char) (y m d : Nat), 1 ≤ y → y ≤ 9999 → 1 ≤ m → m ≤ 12 →
      1 ≤ d → d ≤ daysInMonth y m →
      parse_log_date (String.mk (p ++ '_' ::
        (pad 4 y ++ pad 2 m ++ pad 2 d) ++ ['.', 'l', 'o', 'g'])) =
        some ⟨y, m, d⟩) := by
  have l10 : (0 : Nat) < 10 := by omega
  constructor
  · intro y m d hy1 hy hm1 hm hd1 hd
    have hnodot : ∀ c ∈ pad 4 y ++ '-' :: pad 2 m ++ '-' :: pad 2 d,
        c ≠ '.' := by
      intro c hc
      rw [pad4_eq, pad2_eq, pad2_eq] at hc
      simp only [List.cons_append, List.nil_append, List.mem_cons,
        List.not_mem_nil, or_false] at hc
      rcases hc with rfl | rfl | rfl | rfl | rfl | rfl | rfl | rfl | rfl | rfl
      all_goals first
        | exact digitChar_ne_dot (Nat.mod_lt _ l10)
        | decide
    have hcore : stripLog (pad 4 y ++ '-' :: pad 2 m ++ '-' :: pad 2 d ++
        ['.', 'l', 'o', 'g']) =
        pad 4 y ++ '-' :: pad 2 m ++ '-' :: pad 2 d := by
      rw [show pad 4 y ++ '-' :: pad 2 m ++ '-' :: pad 2 d ++
            ['.', 'l', 'o', 'g'] =
          (pad 4 y ++ '-' :: pad 2 m ++ '-' :: pad 2 d) ++
            ['.', 'l', 'o', 'g'] from by simp]
      exact stripLog_append_dotlog _ hnodot
    have hparse := strptimeDashed_pad y m d hy1 hy hm1 hm hd1 hd
    unfold parse_log_date
    dsimp only
    rw [hcore, hparse]
  · intro p y m d hy1 hy hm1 hm hd1 hd
    have hd8dot : ∀ c ∈ pad 4 y ++ pad 2 m ++ pad 2 d, c ≠ '.' := by
      intro c hc
      rw [pad4_eq, pad2_eq, pad2_eq] at hc
      simp only [List.cons_append, List.nil_append, List.mem_cons,
        List.not_mem_nil, or_false] at hc
      rcases hc with rfl | rfl | rfl | rfl | rfl | rfl | rfl | rfl
      all_goals exact digitChar_ne_dot (Nat.mod_lt _ l10)
    have hd8und : '_' ∉ pad 4 y ++ pad 2 m ++ pad 2 d := by
      intro hc
      rw [pad4_eq, pad2_eq, pad2_eq] at hc
      simp only [List.cons_append, List.nil_append, List.mem_cons,
        List.not_mem_nil, or_false] at hc
      rcases hc with h | h | h | h | h | h | h | h
      all_goals exact digitChar_ne_underscore (Nat.mod_lt _ l10) h.symm
    have hshape : p ++ '_' :: (pad 4 y ++ pad 2 m ++ pad 2 d) ++
        ['.', 'l', 'o', 'g'] =
        p ++ '_' :: ((pad 4 y ++ pad 2 m ++ pad 2 d) ++
          ['.', 'l', 'o', 'g']) := by
      simp
    have hstrip : stripLog (p ++ '_' :: (pad 4 y ++ pad 2 m ++ pad 2 d) ++
        ['.', 'l', 'o', 'g']) =
        stripLog p ++ '_' :: (pad 4 y ++ pad 2 m ++ pad 2 d) := by
      rw [hshape, stripLog_sep,
        stripLog_append_dotlog (pad 4 y ++ pad 2 m ++ pad 2 d) hd8dot]
    have hdash : strptimeDashed
        (stripLog p ++ '_' :: (pad 4 y ++ pad 2 m ++ pad 2 d)) = none :=
      strptimeDashed_underscore
        (List.mem_append_right _ (List.mem_cons_self _ _))
    have hlast : lastSeg (stripLog p ++ '_' ::
        (pad 4 y ++ pad 2 m ++ pad 2 d)) =
        pad 4 y ++ pad 2 m ++ pad 2 d :=
      lastSeg_append _ _ hd8und
    have hparse := strptimeCompact_pad y m d hy1 hy hm1 hm hd1 hd
    unfold parse_log_date
    dsimp only
    rw [hstrip, hdash, hlast, hparse]

theorem c3_witness :
    parse_log_date (String.mk (pad 4 2025 ++ '-' :: pad 2 1 ++ '-' ::
      pad 2 31 ++ ['.', 'l', 'o', 'g'])) = some ⟨2025, 1, 31⟩ ∧
    parse_log_date (String.mk (['#', 'c'] ++ '_' ::
      (pad 4 2024 ++ pad 2 2 ++ pad 2 29) ++ ['.', 'l', 'o', 'g'])) =
      some ⟨2024, 2, 29⟩ :=
  ⟨c3_parse_log_date_accepted_forms.1 2025 1 31 (by decide) (by decide)
     (by decide) (by decide) (by decide) (by decide),
   c3_parse_log_date_accepted_forms.2 ['#', 'c'] 2024 2 29 (by decide)
     (by decide) (by decide) (by decide) (by decide) (by decide)⟩

theorem search_results_length (db : DB) (n q ch : String)
    (sd ed : Option Date) :
    (search_logs db n q ch sd ed).results.length =
      min 1000 (searchMatches db n q ch sd ed).length := by
  unfold search_logs
  dsimp only
  rw [List.length_map, List.length_take, List.length_insertionSort]

/-- The `truncated` flag of the response is set exactly when the number of
matching rows before the `LIMIT` reaches 1000. -/
theorem search_truncated_iff (db : DB) (n q ch : String) (sd ed : Option Date) :
    (search_logs db n q ch sd ed).truncated = true ↔
      1000 ≤ (searchMatches db n q ch sd ed).length := by
  unfold search_logs
  dsimp only
  simp only [decide_eq_true_eq, List.length_map, List.length_take,
    List.length_insertionSort]
  omega

set_option maxRecDepth 100000 in
/-- C4.  Counterexample to the claim's boundary: with exactly 1000 matching
rows, the response reports `truncated = true` although the match count does
not exceed 1000. -/
theorem c4_counterexample :
    (search_logs db1000 "n" "hello" "" none none).truncated = true ∧
    ¬ (1000 < (searchMatches db1000 "n" "hello" "" none none).length) := by
  have hlen : (searchMatches db1000 "n" "hello" "" none none).length = 1000 := by
    decide
  constructor
  · rw [search_truncated_iff]
    omega
  · omega

/-- C4 (amended).  The search response holds at most 1000 rows, ordered by
log date descending then line number ascending, and `truncated` is true
exactly when the number of matching rows before the cap is at least 1000
(the code compares `len(results) >= 1000`, so the flag is also set when the
count equals 1000 exactly). -/
theorem c4_search_cap_order_truncated (db : DB) (n q ch : String)
    (sd ed : Option Date) :
    (search_logs db n q ch sd ed).results.length ≤ 1000 ∧
    List.Sorted searchRowLE (search_logs db n q ch sd ed).results ∧
    ((search_logs db n q ch sd ed).truncated = true ↔
      1000 ≤ (searchMatches db n q ch sd ed).length) := by
  refine ⟨?_, ?_, search_truncated_iff db n q ch sd ed⟩
  · rw [search_results_length]
    omega
  · unfold search_logs
    dsimp only
    apply List.Pairwise.map
    · intro x y hxy
      exact hxy
    · exact List.Pairwise.sublist (List.take_sublist _ _)
        (List.sorted_insertionSort rowLE _)

theorem anySuffix_true_iff (f : List Nat → Bool) (t : List Nat) :
    anySuffix f t = true ↔ ∃ t1 t2, t = t1 ++ t2 ∧ f t2 = true := by
  induction t with
  | nil =>
      simp only [anySuffix]
      constructor
      · intro h
        exact ⟨[], [], rfl, h⟩
      · rintro ⟨t1, t2, heq, hf⟩
        obtain ⟨rfl, rfl⟩ := List.append_eq_nil.mp heq.symm
        exact hf
  | cons x rest ih =>
      simp only [anySuffix, Bool.or_eq_true, ih]
      constructor
      · rintro (hf | ⟨t1, t2, rfl, hf⟩)
        · exact ⟨[], x :: rest, rfl, hf⟩
        · exact ⟨x :: t1, t2, rfl, hf⟩
      · rintro ⟨t1, t2, heq, hf⟩
        cases t1 with
        | nil =>
            rw [List.nil_append] at heq
            subst heq
            exact Or.inl hf
        | cons y t1tl =>
            rw [List.cons_append] at heq
            injection heq with h1 h2
            subst h2
            exact Or.inr ⟨t1tl, t2, rfl, hf⟩

theorem likeMatchN_pct (p t : List Nat) :
    likeMatchN (37 :: p) t = anySuffix (likeMatchN p) t := by
  rw [likeMatchN.eq_def]
  dsimp only
  rw [if_pos rfl]

theorem likeMatchN_lit (c : Nat) (p t : List Nat) (h37 : c ≠ 37) (h95 : c ≠ 95)
    (h92 : c ≠ 92) :
    likeMatchN (c :: p) t =
      match t with
      | [] => false
      | d :: t2 => d == c && likeMatchN p t2 := by
  rw [likeMatchN.eq_def]
  dsimp only
  rw [if_neg h37, if_neg h95, if_neg h92]

theorem likeMatchN_pct_only : ∀ t : List Nat, likeMatchN [37] t = true := by
  intro t
  induction t with
  | nil => decide
  | cons x t2 ih =>
      rw [likeMatchN_pct] at ih ⊢
      simp only [anySuffix, Bool.or_eq_true]
      exact Or.inr ih

/-- A metacharacter-free pattern matches only itself. -/
theorem likeMatchN_literal :
    ∀ (p : List Nat), (∀ k ∈ p, k ≠ 37 ∧ k ≠ 95 ∧ k ≠ 92) →
      ∀ t, (likeMatchN p t = true ↔ p = t)
  | [], _, t => by
      simp only [likeMatchN, List.isEmpty_iff]
      exact ⟨fun h => h.symm, fun h => h.symm⟩
  | c :: ptl, hp, t => by
      obtain ⟨h37, h95, h92⟩ := hp c (List.mem_cons_self c ptl)
      rw [likeMatchN_lit c ptl t h37 h95 h92]
      cases t with
      | nil => simp
      | cons d t2 =>
          have ih := likeMatchN_literal ptl
            (fun k hk => hp k (List.mem_cons_of_mem c hk)) t2
          simp only [Bool.and_eq_true, beq_iff_eq, ih, List.cons.injEq]
          constructor
          · rintro ⟨rfl, rfl⟩
            exact ⟨rfl, rfl⟩
          · rintro ⟨rfl, rfl⟩
            exact ⟨rfl, rfl⟩

/-- A metacharacter-free pattern followed by `%` matches exactly the texts it
prefixes. -/
theorem likeMatchN_append_pct :
    ∀ (p : List Nat), (∀ k ∈ p, k ≠ 37 ∧ k ≠ 95 ∧ k ≠ 92) →
      ∀ t, (likeMatchN (p ++ [37]) t = true ↔ p <+: t)
  | [], _, t => by
      simp only [List.nil_append]
      constructor
      · intro _
        exact List.nil_prefix
      · intro _
        exact likeMatchN_pct_only t
  | c :: ptl, hp, t => by
      obtain ⟨h37, h95, h92⟩ := hp c (List.mem_cons_self c ptl)
      rw [List.cons_append, likeMatchN_lit c (ptl ++ [37]) t h37 h95 h92]
      cases t with
      | nil => simp
      | cons d t2 =>
          have ih := likeMatchN_append_pct ptl
            (fun k hk => hp k (List.mem_cons_of_mem c hk)) t2
          simp only [Bool.and_eq_true, beq_iff_eq, ih, List.cons_prefix_cons]
          constructor
          · rintro ⟨rfl, hpre⟩
            exact ⟨rfl, hpre⟩
          · rintro ⟨rfl, hpre⟩
            exact ⟨rfl, hpre⟩

/-- The `LIKE '%q%'` pattern for metacharacter-free `q` is exactly substring
containment. -/
theorem likeMatchN_infix_iff (q t : List Nat)
    (hq : ∀ k ∈ q, k ≠ 37 ∧ k ≠ 95 ∧ k ≠ 92) :
    likeMatchN (37 :: (q ++ [37])) t = true ↔ q <:+: t := by
  rw [likeMatchN_pct, anySuffix_true_iff]
  constructor
  · rintro ⟨t1, t2, rfl, hf⟩
    obtain ⟨r, rfl⟩ := (likeMatchN_append_pct q hq t2).mp hf
    exact ⟨t1, r, by simp⟩
  · rintro ⟨s, u, rfl⟩
    refine ⟨s, q ++ u, by simp, ?_⟩
    exact (likeMatchN_append_pct q hq (q ++ u)).mpr ⟨u, rfl⟩

theorem ciKey_noMeta {c : Char} (h : c ≠ '%' ∧ c ≠ '_' ∧ c ≠ '\\') :
    ciKey c ≠ 37 ∧ ciKey c ≠ 95 ∧ ciKey c ≠ 92 := by
  unfold ciKey
  split
  · rename_i hc
    refine ⟨?_, ?_, ?_⟩ <;> intro heq <;> omega
  · refine ⟨?_, ?_, ?_⟩ <;> intro heq
    · apply h.1
      have h2 := congrArg Char.ofNat heq
      rw [Char.ofNat_toNat] at h2
      exact h2.trans (by decide)
    · apply h.2.1
      have h2 := congrArg Char.ofNat heq
      rw [Char.ofNat_toNat] at h2
      exact h2.trans (by decide)
    · apply h.2.2
      have h2 := congrArg Char.ofNat heq
      rw [Char.ofNat_toNat] at h2
      exact h2.trans (by decide)

theorem ciKeys_noMeta {q : String}
    (h : ∀ c ∈ q.data, c ≠ '%' ∧ c ≠ '_' ∧ c ≠ '\\') :
    ∀ k ∈ ciKeys q, k ≠ 37 ∧ k ≠ 95 ∧ k ≠ 92 := by
  intro k hk
  unfold ciKeys at hk
  obtain ⟨c, hc, rfl⟩ := List.mem_map.mp hk
  exact ciKey_noMeta (h c hc)

/-- C5.  Counterexample: `a%b` is routed to the non-fulltext branch (it
contains `%`, not a word character), exact substring containment rejects
content `aXb`, yet the search returns that row, because the query is passed
into `LIKE` unescaped and `%` acts as a wildcard. -/
theorem c5_counterexample :
    useFulltext "a%b" = false ∧
    substrCI "a%b" "aXb" = false ∧
    (search_logs ⟨[("n", "N")], [], [⟨"n", "#c", ⟨2025, 1, 1⟩, 1, "aXb"⟩]⟩
      "n" "a%b" "" none none).results =
      [⟨"n", "N", "#c", ⟨2025, 1, 1⟩, 1, "aXb"⟩] := by
  decide

/-- C5 (amended).  Full-text matching is selected exactly for nonempty
queries made solely of word characters; the optional channel and date
filters are pure conjuncts of the match predicate in both modes; and the
non-fulltext branch is `LIKE '%query%'` pattern matching, which coincides
with exact case-insensitive substring containment exactly for queries free
of the `LIKE` metacharacters `%`, `_` and backslash. -/
theorem c5_mode_selection_and_conjunctive_filters :
    (∀ q : String, useFulltext q = true ↔
      q.data ≠ [] ∧ ∀ c ∈ q.data, isWordChar c = true) ∧
    (∀ (network q channel : String) (sd ed : Option Date) (e : LogEntry),
      searchPred network q channel sd ed e = true ↔
        (strEqCI e.network network = true ∧ searchMatch q e.content = true ∧
         (channel = "" ∨ strEqCI e.channel channel = true) ∧
         (∀ d, sd = some d → dateKey d ≤ dateKey e.date) ∧
         (∀ d, ed = some d → dateKey e.date ≤ dateKey d))) ∧
    (∀ (q content : String), useFulltext q = false →
      (∀ c ∈ q.data, c ≠ '%' ∧ c ≠ '_' ∧ c ≠ '\\') →
      (searchMatch q content = true ↔ substrCI q content = true)) := by
  refine ⟨?_, ?_, ?_⟩
  · intro q
    unfold useFulltext
    simp only [Bool.and_eq_true, Bool.not_eq_true', List.all_eq_true,
      List.isEmpty_eq_false]
  · intro network q channel sd ed e
    have hch : channel.data.isEmpty = true ↔ channel = "" := by
      rw [List.isEmpty_iff]
      constructor
      · intro h
        exact congrArg String.mk h
      · rintro rfl
        rfl
    unfold searchPred
    cases sd <;> cases ed <;>
      simp only [Bool.and_eq_true, Bool.or_eq_true, decide_eq_true_eq,
        Option.some.injEq, forall_eq', reduceCtorEq, false_implies,
        forall_const, hch, and_true, true_and] <;>
      tauto
  · intro q content hft hmeta
    unfold searchMatch
    rw [hft]
    simp only [Bool.false_eq_true, if_false]
    unfold substrCI
    rw [decide_eq_true_iff]
    exact likeMatchN_infix_iff (ciKeys q) (ciKeys content) (ciKeys_noMeta hmeta)

theorem c5_witness :
    useFulltext "hello world" = false ∧
    (searchMatch "hello world" "say hello world now" = true ↔
      substrCI "hello world" "say hello world now" = true) :=
  ⟨by decide,
   c5_mode_selection_and_conjunctive_filters.2.2 "hello world"
     "say hello world now" (by decide) (by decide)⟩

/-- C6.  The context response returns exactly the stored rows of the
(network, channel, date) file with line number in
`[max(1, center - before), center + after]`; `can_expand_up` holds iff the
window start exceeds 1, `can_expand_down` iff the window end is below the
file's total row count, and a returned row is flagged as the match iff its
line number equals the center. -/
theorem c6_context_window (db : DB) (network channel : String) (d : Date)
    (center b a : Nat) :
    (get_context db network channel d center b a).startLine =
      max 1 (center - b) ∧
    (get_context db network channel d center b a).endLine = center + a ∧
    (∀ x ∈ (get_context db network channel d center b a).context,
      x.2.2 = true ↔ x.1 = center) ∧
    ((get_context db network channel d center b a).canExpandUp = true ↔
      1 < (get_context db network channel d center b a).startLine) ∧
    ((get_context db network channel d center b a).canExpandDown = true ↔
      (get_context db network channel d center b a).endLine <
        (get_context db network channel d center b a).totalLines) ∧
    (∀ x, x ∈ (get_context db network channel d center b a).context ↔
      ∃ e ∈ db.entries,
        (strEqCI e.network network = true ∧ strEqCI e.channel channel = true ∧
          e.date = d) ∧
        max 1 (center - b) ≤ e.line ∧ e.line ≤ center + a ∧
        x = (e.line, e.content, e.line == center)) := by
  unfold get_context
  dsimp only
  refine ⟨rfl, rfl, ?_, ?_, ?_, ?_⟩
  · intro x hx
    obtain ⟨e, -, rfl⟩ := List.mem_map.mp hx
    simp only [beq_iff_eq]
  · simp only [decide_eq_true_eq]
  · simp only [decide_eq_true_eq]
  · intro x
    simp only [List.mem_map]
    constructor
    · rintro ⟨e, he, rfl⟩
      have he2 := (List.perm_insertionSort _ _).subset he
      rw [List.mem_filter] at he2
      obtain ⟨he3, hrange⟩ := he2
      rw [List.mem_filter] at he3
      obtain ⟨hdb, htriple⟩ := he3
      simp only [Bool.and_eq_true, decide_eq_true_eq, beq_iff_eq]
        at htriple hrange
      exact ⟨e, hdb, ⟨htriple.1.1, htriple.1.2, htriple.2⟩, hrange.1,
        hrange.2, rfl⟩
    · rintro ⟨e, hdb, htriple, hlow, hhigh, rfl⟩
      refine ⟨e, ?_, rfl⟩
      apply (List.perm_insertionSort _ _).mem_iff.mpr
      rw [List.mem_filter]
      refine ⟨?_, by simp only [decide_eq_true_eq]; exact ⟨hlow, hhigh⟩⟩
      rw [List.mem_filter]
      refine ⟨hdb, ?_⟩
      simp only [Bool.and_eq_true, decide_eq_true_eq, beq_iff_eq]
      exact ⟨⟨htriple.1, htriple.2.1⟩, htriple.2.2⟩

theorem c6_witness :
    ((2 : Nat), ("y", true)) ∈
      (get_context ⟨[], [], [⟨"n", "#c", ⟨2025, 1, 1⟩, 2, "y"⟩]⟩
        "n" "#c" ⟨2025, 1, 1⟩ 2 2 2).context ∧
    (((2 : Nat), ("y", true)).2.2 = true ↔ ((2 : Nat), ("y", true)).1 = 2) :=
  ⟨by decide,
   (c6_context_window ⟨[], [], [⟨"n", "#c", ⟨2025, 1, 1⟩, 2, "y"⟩]⟩
     "n" "#c" ⟨2025, 1, 1⟩ 2 2 2).2.2.1 _ (by decide)⟩

end ZncSearch
